import Mathlib

/-!
Verification of `dstats`, a library of descriptive-statistics primitives over
one-dimensional numeric sequences (`src/dstats.py`).

Modelling conventions:
* a sequence of numbers is a `List ℚ` (every IEEE-754 double is a rational,
  and all arithmetic in the source on the inputs of interest is exact
  field arithmetic: `+`, `-`, `*`, `/`);
* operations whose mathematical value is irrational (`np.sqrt`, `np.log`)
  return `ℝ`;
* a Python exception (`ValueError`, `IndexError` from indexing an empty
  array, `np.max` of an empty array) is modelled by `none` in an
  `Option`-valued function;
* `arr.sort(kind='mergesort')` sorts totally ordered numeric values, so any
  correct sort produces the same list (stability is irrelevant for plain
  values); we use `List.insertionSort`, which evaluates definitionally, and
  on a linear order agrees with `List.mergeSort`
  (`List.mergeSort_eq_insertionSort`).
-/

namespace DStats

/-- Embedding of `mean` (dstats.py lines 11-15): `np.sum(x) / x_arr.size`. -/
def mean (x : List ℚ) : ℚ := x.sum / (x.length : ℚ)

/-- Ascending sort of a copy, as in `arr.sort(kind='mergesort')`. -/
def sortAsc (x : List ℚ) : List ℚ := x.insertionSort (· ≤ ·)

/-- Embedding of `median` (dstats.py lines 18-25): sort a copy; if the length
is odd return the middle element `x_arr[length//2]`, otherwise return
`(x_arr[length//2] + x_arr[length//2 - 1]) / 2`.  On the empty array the
indexing raises `IndexError`, modelled by `none`. -/
def median (x : List ℚ) : Option ℚ :=
  let a := sortAsc x
  let n := a.length
  if n % 2 ≠ 0 then a[n / 2]?
  else
    match a[n / 2]?, a[n / 2 - 1]? with
    | some u, some v => some ((u + v) / 2)
    | _, _ => none

/-- The distinct values of `x` in ascending order, as returned by
`np.unique`. -/
def uniqueVals (x : List ℚ) : List ℚ := x.dedup.insertionSort (· ≤ ·)

/-- Embedding of `mode` (dstats.py lines 28-44): `np.unique(arr,
return_counts=True)` yields the sorted distinct values and their occurrence
counts; if the maximal count is 1 return `[]`, otherwise return the distinct
values whose count attains the maximum (`unique[np.where(counts ==
max_count)]`), which keeps `np.unique`'s ascending order.  `np.max` of an
empty count array raises, modelled by `none`. -/
def mode (x : List ℚ) : Option (List ℚ) :=
  let u := uniqueVals x
  let counts := u.map (fun v => x.count v)
  match counts.max? with
  | none => none
  | some m => if m = 1 then some [] else some (u.filter (fun v => x.count v = m))

/-- Embedding of `variance` (dstats.py lines 49-60): subtract the mean,
square elementwise, and divide the sum by `arr.size - ddof` (Python integer
subtraction, then float division — modelled as subtraction in `ℚ`). -/
def variance (x : List ℚ) (ddof : ℕ := 1) : ℚ :=
  let arr := x.map (fun v => v - mean x)
  let sq := arr.map (fun v => v ^ 2)
  sq.sum / ((x.length : ℚ) - (ddof : ℚ))

/-- Embedding of `std` (dstats.py lines 63-71): `np.sqrt(variance(x, ddof))`. -/
noncomputable def std (x : List ℚ) (ddof : ℕ := 1) : ℝ :=
  Real.sqrt ((variance x ddof : ℚ) : ℝ)

/-- Embedding of `fano_factor` (dstats.py lines 74-76):
`variance(x, ddof=1) / mean(x)`, with no guard on the denominator. -/
def fano_factor (x : List ℚ) : ℚ := variance x 1 / mean x

/-- Embedding of `coefficient_of_variance` (dstats.py lines 79-84): raises
`ValueError` when `mean(x) <= 0`, otherwise returns `std(x) / mean(x)`. -/
noncomputable def coefficient_of_variance (x : List ℚ) : Option ℝ :=
  let m := mean x
  if m ≤ 0 then none
  else some (std x 1 / (m : ℝ))

/-- Embedding of `iqr` (dstats.py lines 87-109): sort a copy, let `q2` be its
median, slice the lower half `arr[0:int(arr.size/2)]` and the upper half
`arr[int(arr.size/2):]` for even length or `arr[int(arr.size/2+1):]` for odd
length (`int` truncates the float `arr.size/2`, giving `n/2` resp. `n/2+1`
in integer arithmetic), and return `[q3 - q1, q1, q2, q3]`.  A `median` call
that raises propagates, modelled by `none`. -/
def iqr (x : List ℚ) : Option (List ℚ) :=
  let arr := sortAsc x
  let n := arr.length
  match median arr with
  | none => none
  | some q2 =>
    let arr_l := arr.take (n / 2)
    let arr_r := if n % 2 = 0 then arr.drop (n / 2) else arr.drop (n / 2 + 1)
    match median arr_l, median arr_r with
    | some q1, some q3 => some [q3 - q1, q1, q2, q3]
    | _, _ => none

/-- Dot product of two equal-length sequences, as `np.dot`. -/
def dot : List ℚ → List ℚ → ℚ
  | a :: x, b :: y => a * b + dot x y
  | _, _ => 0

/-- Mean-centered copy of a sequence, `arr - np.mean(arr)`. -/
def centered (x : List ℚ) : List ℚ := x.map (fun v => v - mean x)

/-- Embedding of `corr` (dstats.py lines 112-132): center both sequences,
take `ut = np.dot(x_centered, y_centered)` and the product `lt` of the two
centered L2 norms; if `lt == 0` return `0.0`, otherwise `ut / lt`. -/
noncomputable def corr (x y : List ℚ) : ℝ :=
  let xc := centered x
  let yc := centered y
  let ut := dot xc yc
  let norm_x := Real.sqrt ((dot xc xc : ℚ) : ℝ)
  let norm_y := Real.sqrt ((dot yc yc : ℚ) : ℝ)
  let lt := norm_x * norm_y
  if lt = 0 then 0 else (ut : ℝ) / lt

/-- Embedding of `r_zscore` (dstats.py lines 162-170): the elementwise
transform `(arr + mu) * sigma`. -/
def r_zscore (x : List ℚ) (mu sigma : ℚ) : List ℚ :=
  x.map (fun v => (v + mu) * sigma)

/-- Embedding of `fisherz_scalar` (dstats.py lines 203-207): raises
`ValueError` when `x <= -1 or x >= 1`, otherwise returns
`0.5 * np.log((1 + x) / (1 - x))`. -/
noncomputable def fisherz_scalar (v : ℚ) : Option ℝ :=
  if v ≤ -1 ∨ 1 ≤ v then none
  else some ((1 / 2 : ℝ) * Real.log ((1 + (v : ℝ)) / (1 - (v : ℝ))))

/-! ### Helper lemmas about sorting and the median -/

lemma sortAsc_perm (x : List ℚ) : (sortAsc x).Perm x :=
  List.perm_insertionSort _ x

lemma sortAsc_sorted (x : List ℚ) : (sortAsc x).Sorted (· ≤ ·) :=
  List.sorted_insertionSort _ x

lemma length_sortAsc (x : List ℚ) : (sortAsc x).length = x.length :=
  (sortAsc_perm x).length_eq

lemma sortAsc_congr {x y : List ℚ} (h : x.Perm y) : sortAsc x = sortAsc y :=
  List.eq_of_perm_of_sorted ((sortAsc_perm x).trans (h.trans (sortAsc_perm y).symm))
    (sortAsc_sorted x) (sortAsc_sorted y)

lemma median_congr {x y : List ℚ} (h : x.Perm y) : median x = median y := by
  unfold median
  rw [sortAsc_congr h]

lemma median_sortAsc (x : List ℚ) : median (sortAsc x) = median x :=
  median_congr (sortAsc_perm x)

lemma median_ne_nil {x : List ℚ} (h : x ≠ []) : ∃ q, median x = some q := by
  have hn : 0 < (sortAsc x).length := by
    rw [length_sortAsc]
    exact List.length_pos.mpr h
  rw [median]
  by_cases hpar : (sortAsc x).length % 2 ≠ 0
  · rw [if_pos hpar]
    exact ⟨_, List.getElem?_eq_getElem (Nat.div_lt_self hn (by norm_num))⟩
  · rw [if_neg hpar,
      List.getElem?_eq_getElem (Nat.div_lt_self hn (by norm_num)),
      List.getElem?_eq_getElem
        (lt_of_le_of_lt (Nat.sub_le _ 1) (Nat.div_lt_self hn (by norm_num)))]
    exact ⟨_, rfl⟩

/-- C8: the median is invariant under reversal and, more generally, under any
permutation of its input, because it sorts a private copy before picking the
middle element(s). -/
theorem median_perm_invariant :
    (∀ x : List ℚ, x ≠ [] → median x = median x.reverse) ∧
    (∀ x y : List ℚ, x.Perm y → median x = median y) :=
  ⟨fun x _ => median_congr (x.reverse_perm).symm, fun _ _ h => median_congr h⟩

/-- C8 witness at the concrete input `[1, 2, 3]`. -/
theorem median_perm_invariant_witness :
    ([1, 2, 3] : List ℚ) ≠ [] ∧
      median [1, 2, 3] = median ([1, 2, 3] : List ℚ).reverse :=
  ⟨by decide, median_perm_invariant.1 [1, 2, 3] (by decide)⟩

/-- C1 counterexample: on `[1,2,3,4,5]` the code's median-exclusion rule
computes `Q1 = median [1,2] = 1.5` and `Q3 = median [4,5] = 4.5`, so the
claimed value `[2.0, 2.0, 3.0, 4.0]` is not returned. -/
theorem iqr_12345_counterexample :
    iqr [1, 2, 3, 4, 5] ≠ some [2, 2, 3, 4] := by
  norm_num [iqr, median, sortAsc, List.insertionSort, List.orderedInsert]

/-- C1 (amended): `iqr [1,2,3,4,5]` returns `[3.0, 1.5, 3.0, 4.5]`, i.e.
IQR 3.0, Q1 1.5, Q2 3.0, Q3 4.5. -/
theorem iqr_12345 :
    iqr [1, 2, 3, 4, 5] = some [3, 3 / 2, 3, 9 / 2] := by
  norm_num [iqr, median, sortAsc, List.insertionSort, List.orderedInsert]

/-- C2: for every sequence of length at least 2, `iqr` takes Q2 to be the
median of the whole sequence, Q1 the median of the lower half (the first
`n / 2` elements of the ascending sort), Q3 the median of the upper half
(dropping `n / 2` elements when `n` is even, `n / 2 + 1` when `n` is odd,
excluding the middle element), and returns `[Q3 - Q1, Q1, Q2, Q3]`. -/
theorem iqr_quartile_split (x : List ℚ) (h : 2 ≤ x.length) :
    ∃ q1 q2 q3 : ℚ,
      median x = some q2 ∧
      median ((sortAsc x).take (x.length / 2)) = some q1 ∧
      median ((sortAsc x).drop
          (if x.length % 2 = 0 then x.length / 2 else x.length / 2 + 1)) = some q3 ∧
      iqr x = some [q3 - q1, q1, q2, q3] := by
  have hne : x ≠ [] := by
    intro hx
    rw [hx] at h
    simp at h
  have hn : (sortAsc x).length = x.length := length_sortAsc x
  obtain ⟨q2, hq2⟩ := median_ne_nil hne
  have hq2s : median (sortAsc x) = some q2 := (median_sortAsc x).trans hq2
  have hL : (sortAsc x).take (x.length / 2) ≠ [] := by
    have hlen : ((sortAsc x).take (x.length / 2)).length = x.length / 2 := by
      rw [List.length_take, hn]
      omega
    intro hnil
    rw [hnil] at hlen
    simp at hlen
    omega
  obtain ⟨q1, hq1⟩ := median_ne_nil hL
  have hR : (sortAsc x).drop
      (if x.length % 2 = 0 then x.length / 2 else x.length / 2 + 1) ≠ [] := by
    have hlen : ((sortAsc x).drop
        (if x.length % 2 = 0 then x.length / 2 else x.length / 2 + 1)).length
        = x.length - (if x.length % 2 = 0 then x.length / 2 else x.length / 2 + 1) := by
      rw [List.length_drop, hn]
    intro hnil
    rw [hnil] at hlen
    simp at hlen
    by_cases hpar : x.length % 2 = 0
    · rw [if_pos hpar] at hlen
      omega
    · rw [if_neg hpar] at hlen
      omega
  obtain ⟨q3, hq3⟩ := median_ne_nil hR
  refine ⟨q1, q2, q3, hq2, hq1, hq3, ?_⟩
  rw [iqr]
  simp only [hn, hq2s]
  by_cases hpar : x.length % 2 = 0
  · rw [if_pos hpar] at hq3 ⊢
    rw [hq1, hq3]
  · rw [if_neg hpar] at hq3 ⊢
    rw [hq1, hq3]

/-- C2 witness at the concrete input `[1, 2, 3, 4]`. -/
theorem iqr_quartile_split_witness :
    2 ≤ ([1, 2, 3, 4] : List ℚ).length ∧
    ∃ q1 q2 q3 : ℚ,
      median ([1, 2, 3, 4] : List ℚ) = some q2 ∧
      median ((sortAsc [1, 2, 3, 4]).take (([1, 2, 3, 4] : List ℚ).length / 2)) = some q1 ∧
      median ((sortAsc [1, 2, 3, 4]).drop
          (if ([1, 2, 3, 4] : List ℚ).length % 2 = 0 then ([1, 2, 3, 4] : List ℚ).length / 2
            else ([1, 2, 3, 4] : List ℚ).length / 2 + 1)) = some q3 ∧
      iqr [1, 2, 3, 4] = some [q3 - q1, q1, q2, q3] :=
  ⟨by decide, iqr_quartile_split [1, 2, 3, 4] (by decide)⟩

/-- C10: on a single-element sequence `iqr` produces no result: the lower
half `arr[0 : n/2]` is empty and taking its median indexes an empty array.
The second conjunct records that the median of the empty sequence is
undefined (the indexing raises). -/
theorem iqr_singleton :
    (∀ x : List ℚ, x.length = 1 → iqr x = none) ∧ median ([] : List ℚ) = none := by
  constructor
  · intro x hx
    obtain ⟨a, rfl⟩ := List.length_eq_one.mp hx
    simp [iqr, median, sortAsc]
  · simp [median, sortAsc]

/-- C10 witness at the concrete input `[5]`. -/
theorem iqr_singleton_witness :
    ([(5 : ℚ)] : List ℚ).length = 1 ∧ iqr [(5 : ℚ)] = none :=
  ⟨by decide, iqr_singleton.1 [(5 : ℚ)] (by decide)⟩

/-- C9: `variance x ddof` is the sum of squared deviations from the mean
divided by `n - ddof` (so `ddof = 0` gives the population variance and
`ddof = 1` the sample variance), and for `n > 1` the sample variance is at
least the population variance. -/
theorem variance_spec :
    (∀ (x : List ℚ) (d : ℕ),
      variance x d =
        (x.map (fun v => (v - mean x) ^ 2)).sum / ((x.length : ℚ) - (d : ℚ))) ∧
    (∀ x : List ℚ, 1 < x.length → variance x 0 ≤ variance x 1) := by
  constructor
  · intro x d
    rw [variance]
    simp only [List.map_map]
    rfl
  · intro x hx
    have hS : 0 ≤ (x.map (fun v => (v - mean x) ^ 2)).sum := by
      apply List.sum_nonneg
      intro a ha
      simp only [List.mem_map] at ha
      obtain ⟨v, _, rfl⟩ := ha
      positivity
    have hrw : ∀ d : ℕ, variance x d =
        (x.map (fun v => (v - mean x) ^ 2)).sum / ((x.length : ℚ) - (d : ℚ)) := by
      intro d
      rw [variance]
      simp only [List.map_map]
      rfl
    rw [hrw 0, hrw 1]
    have h2 : (2 : ℚ) ≤ (x.length : ℚ) := by exact_mod_cast hx
    have hn1 : (0 : ℚ) < (x.length : ℚ) - (1 : ℕ) := by push_cast; linarith
    have hn0 : (0 : ℚ) < (x.length : ℚ) - (0 : ℕ) := by push_cast; linarith
    rw [div_le_div_iff₀ hn0 hn1]
    push_cast
    nlinarith [hS]

/-- C9 witness at the concrete input `[1, 2, 3]`. -/
theorem variance_spec_witness :
    1 < ([1, 2, 3] : List ℚ).length ∧
      variance [1, 2, 3] 0 ≤ variance [1, 2, 3] 1 :=
  ⟨by decide, variance_spec.2 [1, 2, 3] (by decide)⟩

/-- C5: `r_zscore x mu sigma` has the same length as `x` and its `i`-th
element is exactly `(x_i + mu) * sigma`, the literal formula from the
source. -/
theorem r_zscore_formula (x : List ℚ) (mu sigma : ℚ) :
    (r_zscore x mu sigma).length = x.length ∧
    ∀ i : ℕ, (r_zscore x mu sigma)[i]? = x[i]?.map (fun v => (v + mu) * sigma) := by
  refine ⟨List.length_map _ _, fun i => ?_⟩
  rw [r_zscore, List.getElem?_map]

/-- C3: `coefficient_of_variance` fails exactly when the mean is
non-positive, otherwise returns `std(x, ddof=1) / mean(x)`; in particular it
fails on `[-1, -2, -3]`; and `fano_factor` divides by the mean with no such
guard. -/
theorem coefficient_of_variance_guard :
    (∀ x : List ℚ, coefficient_of_variance x = none ↔ mean x ≤ 0) ∧
    (∀ x : List ℚ, 0 < mean x →
      coefficient_of_variance x = some (std x 1 / ((mean x : ℚ) : ℝ))) ∧
    coefficient_of_variance [-1, -2, -3] = none ∧
    (∀ x : List ℚ, fano_factor x = variance x 1 / mean x) := by
  refine ⟨fun x => ?_, fun x hx => ?_, ?_, fun x => rfl⟩
  · rw [coefficient_of_variance]
    by_cases hm : mean x ≤ 0
    · simp [hm]
    · simp [hm]
  · rw [coefficient_of_variance, if_neg (not_le.mpr hx)]
  · have hm : mean [-1, -2, -3] ≤ (0 : ℚ) := by
      norm_num [mean, List.sum_cons, List.sum_nil]
    rw [coefficient_of_variance, if_pos hm]

/-- C3 witness at the concrete input `[1, 2, 3]`. -/
theorem coefficient_of_variance_guard_witness :
    0 < mean [1, 2, 3] ∧
      coefficient_of_variance [1, 2, 3] =
        some (std [1, 2, 3] 1 / ((mean [1, 2, 3] : ℚ) : ℝ)) :=
  ⟨by norm_num [mean, List.sum_cons, List.sum_nil],
    coefficient_of_variance_guard.2.1 [1, 2, 3]
      (by norm_num [mean, List.sum_cons, List.sum_nil])⟩

/-- C7: `fisherz_scalar v` returns `0.5 * ln((1+v)/(1-v))` for `v` strictly
between `-1` and `1` and fails exactly when `v ≤ -1` or `v ≥ 1`; at `0.5` it
returns `0.5 * ln 3`, and at `1` and `-1` it fails. -/
theorem fisherz_scalar_domain :
    (∀ v : ℚ, -1 < v ∧ v < 1 →
      fisherz_scalar v =
        some ((1 / 2 : ℝ) * Real.log ((1 + (v : ℝ)) / (1 - (v : ℝ))))) ∧
    (∀ v : ℚ, v ≤ -1 ∨ 1 ≤ v → fisherz_scalar v = none) ∧
    fisherz_scalar (1 / 2) = some ((1 / 2 : ℝ) * Real.log 3) ∧
    fisherz_scalar 1 = none ∧
    fisherz_scalar (-1) = none := by
  refine ⟨fun v hv => ?_, fun v hv => ?_, ?_, ?_, ?_⟩
  · rw [fisherz_scalar, if_neg]
    push_neg
    exact hv
  · rw [fisherz_scalar, if_pos hv]
  · rw [fisherz_scalar, if_neg (by norm_num)]
    push_cast
    norm_num
  · rw [fisherz_scalar, if_pos (by norm_num)]
  · rw [fisherz_scalar, if_pos (by norm_num)]

/-- C7 witness at the concrete input `0`. -/
theorem fisherz_scalar_domain_witness :
    (-1 < (0 : ℚ) ∧ (0 : ℚ) < 1) ∧
      fisherz_scalar 0 =
        some ((1 / 2 : ℝ) * Real.log ((1 + ((0 : ℚ) : ℝ)) / (1 - ((0 : ℚ) : ℝ)))) :=
  ⟨by norm_num, fisherz_scalar_domain.1 0 (by norm_num)⟩

/-! ### Helper lemmas about dot products of centered sequences -/

lemma dot_self_nonneg (l : List ℚ) : 0 ≤ dot l l := by
  induction l with
  | nil => simp [dot]
  | cons a t ih =>
    simp only [dot]
    exact add_nonneg (mul_self_nonneg a) ih

lemma dot_self_pos {l : List ℚ} (h : ∃ v ∈ l, v ≠ 0) : 0 < dot l l := by
  induction l with
  | nil => simp at h
  | cons a t ih =>
    simp only [dot]
    rcases h with ⟨v, hv, hvne⟩
    rcases List.mem_cons.mp hv with rfl | hvt
    · have h1 : 0 < v * v := mul_self_pos.mpr hvne
      have h2 := dot_self_nonneg t
      linarith
    · have h1 : 0 < dot t t := ih ⟨v, hvt, hvne⟩
      have h2 := mul_self_nonneg a
      linarith

lemma dot_self_zero {l : List ℚ} (h : ∀ v ∈ l, v = 0) : dot l l = 0 := by
  induction l with
  | nil => simp [dot]
  | cons a t ih =>
    simp only [dot]
    rw [h a (List.mem_cons_self a t), ih (fun v hv => h v (List.mem_cons_of_mem a hv))]
    ring

lemma mean_const {x : List ℚ} {c : ℚ} (hne : x ≠ []) (h : ∀ a ∈ x, a = c) :
    mean x = c := by
  have hl : (x.length : ℚ) ≠ 0 := by
    have := List.length_pos.mpr hne
    positivity
  rw [mean, List.sum_eq_card_nsmul x c h, nsmul_eq_mul]
  field_simp

lemma centered_has_ne_zero {x : List ℚ} (h : ¬ ∀ a ∈ x, ∀ b ∈ x, a = b) :
    ∃ v ∈ centered x, v ≠ 0 := by
  by_contra hall
  push_neg at hall
  apply h
  intro a ha b hb
  have ha0 : a - mean x = 0 := hall _ (List.mem_map_of_mem _ ha)
  have hb0 : b - mean x = 0 := hall _ (List.mem_map_of_mem _ hb)
  linarith

lemma corr_of_dot_self_zero {x : List ℚ} (y : List ℚ)
    (hd : dot (centered x) (centered x) = 0) : corr x y = 0 := by
  rw [corr]
  simp [hd, Real.sqrt_zero]

/-- C4: `corr` returns the dot product of the mean-centered vectors divided
by the product of their L2 norms, except that it returns `0.0` when that
denominator is exactly `0`; hence `corr` of a constant sequence with
anything is `0`, and `corr x x = 1` for every non-constant `x` (exact over
the reals; `≈` in floating point). -/
theorem corr_spec :
    (∀ x y : List ℚ,
      (Real.sqrt ((dot (centered x) (centered x) : ℚ) : ℝ) *
          Real.sqrt ((dot (centered y) (centered y) : ℚ) : ℝ) = 0 →
        corr x y = 0) ∧
      (Real.sqrt ((dot (centered x) (centered x) : ℚ) : ℝ) *
          Real.sqrt ((dot (centered y) (centered y) : ℚ) : ℝ) ≠ 0 →
        corr x y = ((dot (centered x) (centered y) : ℚ) : ℝ) /
          (Real.sqrt ((dot (centered x) (centered x) : ℚ) : ℝ) *
            Real.sqrt ((dot (centered y) (centered y) : ℚ) : ℝ)))) ∧
    (∀ x y : List ℚ, (∀ a ∈ x, ∀ b ∈ x, a = b) → corr x y = 0) ∧
    (∀ x : List ℚ, ¬ (∀ a ∈ x, ∀ b ∈ x, a = b) → corr x x = 1) := by
  refine ⟨fun x y => ⟨fun h => ?_, fun h => ?_⟩, fun x y hconst => ?_, fun x hncon => ?_⟩
  · rw [corr, if_pos h]
  · rw [corr, if_neg h]
  · apply corr_of_dot_self_zero
    rcases eq_or_ne x [] with rfl | hne
    · simp [centered, dot]
    · apply dot_self_zero
      intro v hv
      rcases List.mem_map.mp hv with ⟨a, ha, rfl⟩
      have hmean : mean x = a := mean_const hne (fun w hw => hconst w hw a ha)
      rw [hmean]
      ring
  · have hd : 0 < dot (centered x) (centered x) :=
      dot_self_pos (centered_has_ne_zero hncon)
    have hdR : (0 : ℝ) < ((dot (centered x) (centered x) : ℚ) : ℝ) := by
      exact_mod_cast hd
    have hs : Real.sqrt ((dot (centered x) (centered x) : ℚ) : ℝ) *
        Real.sqrt ((dot (centered x) (centered x) : ℚ) : ℝ)
        = ((dot (centered x) (centered x) : ℚ) : ℝ) :=
      Real.mul_self_sqrt hdR.le
    rw [corr, if_neg (by rw [hs]; exact ne_of_gt hdR), hs]
    exact div_self (ne_of_gt hdR)

/-- C4 witness at the concrete non-constant input `[1, 2]`. -/
theorem corr_spec_witness :
    ¬ (∀ a ∈ ([1, 2] : List ℚ), ∀ b ∈ ([1, 2] : List ℚ), a = b) ∧
      corr [1, 2] [1, 2] = 1 :=
  ⟨by decide, corr_spec.2.2 [1, 2] (by decide)⟩

/-! ### Helper lemmas about the distinct-value list and maxima of counts -/

lemma mem_uniqueVals {x : List ℚ} {v : ℚ} : v ∈ uniqueVals x ↔ v ∈ x := by
  rw [uniqueVals, List.mem_insertionSort, List.mem_dedup]

lemma uniqueVals_nodup (x : List ℚ) : (uniqueVals x).Nodup :=
  (List.perm_insertionSort _ _).nodup_iff.mpr x.nodup_dedup

lemma uniqueVals_sorted_lt (x : List ℚ) : (uniqueVals x).Sorted (· < ·) :=
  (List.sorted_insertionSort _ _).lt_of_le (uniqueVals_nodup x)

lemma uniqueVals_ne_nil {x : List ℚ} (h : x ≠ []) : uniqueVals x ≠ [] := by
  obtain ⟨a, ha⟩ := List.exists_mem_of_ne_nil x h
  exact List.ne_nil_of_mem (mem_uniqueVals.mpr ha)

lemma max?_nat_spec {l : List ℕ} {m : ℕ} (h : l.max? = some m) :
    m ∈ l ∧ ∀ b ∈ l, b ≤ m :=
  ⟨List.max?_mem (fun a b => max_choice a b) h,
    (List.max?_le_iff (fun _ _ _ => max_le_iff) h).mp le_rfl⟩

/-- C6: for every non-empty sequence, `mode` returns `[]` when every value
occurs exactly once, and otherwise returns, in strictly ascending order,
exactly the values whose occurrence count attains the maximum; the two
worked examples from the spec are included. -/
theorem mode_spec (x : List ℚ) (h : x ≠ []) :
    ((∀ v ∈ x, x.count v = 1) → mode x = some []) ∧
    (¬ (∀ v ∈ x, x.count v = 1) →
      ∃ l, mode x = some l ∧ l.Sorted (· < ·) ∧
        ∀ v : ℚ, v ∈ l ↔ v ∈ x ∧ ∀ w ∈ x, x.count w ≤ x.count v) ∧
    mode [1, 1, 2, 2, 3] = some [1, 2] ∧
    mode [1, 2, 3] = some [] := by
  have hcne : (uniqueVals x).map (fun v => x.count v) ≠ [] := by
    simp [uniqueVals_ne_nil h]
  obtain ⟨m, hm⟩ : ∃ m, ((uniqueVals x).map (fun v => x.count v)).max? = some m := by
    cases hmm : ((uniqueVals x).map (fun v => x.count v)).max? with
    | none => exact absurd (List.max?_eq_none_iff.mp hmm) hcne
    | some m => exact ⟨m, rfl⟩
  obtain ⟨hmmem, hmub⟩ := max?_nat_spec hm
  obtain ⟨v0, hv0u, hv0⟩ := List.mem_map.mp hmmem
  have hv0x : v0 ∈ x := mem_uniqueVals.mp hv0u
  have hcount_le : ∀ w ∈ x, x.count w ≤ m := fun w hw =>
    hmub _ (List.mem_map_of_mem _ (mem_uniqueVals.mpr hw))
  have hmode : mode x = if m = 1 then some []
      else some ((uniqueVals x).filter (fun v => x.count v = m)) := by
    simp only [mode]
    rw [hm]
  refine ⟨fun hall => ?_, fun hnall => ?_, by decide, by decide⟩
  · have hm1 : m = 1 := by rw [← hv0]; exact hall v0 hv0x
    rw [hmode, if_pos hm1]
  · push_neg at hnall
    obtain ⟨v1, hv1x, hv1⟩ := hnall
    have h1 : 0 < x.count v1 := List.count_pos_iff.mpr hv1x
    have h2 : x.count v1 ≤ m := hcount_le v1 hv1x
    have hm1 : m ≠ 1 := by omega
    refine ⟨_, by rw [hmode, if_neg hm1], (uniqueVals_sorted_lt x).filter _, fun v => ?_⟩
    rw [List.mem_filter]
    simp only [decide_eq_true_eq, mem_uniqueVals]
    constructor
    · rintro ⟨hvx, hvm⟩
      exact ⟨hvx, fun w hw => hvm ▸ hcount_le w hw⟩
    · rintro ⟨hvx, hub⟩
      refine ⟨hvx, le_antisymm (hcount_le v hvx) ?_⟩
      calc m = x.count v0 := hv0.symm
      _ ≤ x.count v := hub v0 hv0x

/-- C6 witness at the concrete input `[1, 1, 2]`. -/
theorem mode_spec_witness :
    ([1, 1, 2] : List ℚ) ≠ [] ∧
      (((∀ v ∈ ([1, 1, 2] : List ℚ), ([1, 1, 2] : List ℚ).count v = 1) →
          mode [1, 1, 2] = some []) ∧
        (¬ (∀ v ∈ ([1, 1, 2] : List ℚ), ([1, 1, 2] : List ℚ).count v = 1) →
          ∃ l, mode [1, 1, 2] = some l ∧ l.Sorted (· < ·) ∧
            ∀ v : ℚ, v ∈ l ↔ v ∈ ([1, 1, 2] : List ℚ) ∧
              ∀ w ∈ ([1, 1, 2] : List ℚ),
                ([1, 1, 2] : List ℚ).count w ≤ ([1, 1, 2] : List ℚ).count v) ∧
        mode [1, 1, 2, 2, 3] = some [1, 2] ∧
        mode [1, 2, 3] = some []) :=
  ⟨by decide, mode_spec [1, 1, 2] (by decide)⟩

end DStats
